import Mathlib

/-!
Verification of the ck-rust concurrency library against its specification.

Each component is shallowly embedded as a pure Lean function over an explicit
state, following the source in `src/`.  All operations are modelled in their
single-threaded (sequential) semantics: a compare-and-swap that is reached
with no interfering thread always succeeds, so the retry loops of the source
execute exactly one iteration.  Machine integers are modelled as `Nat` with an
explicit `% 2 ^ w` wherever the source performs wrapping arithmetic
(`wrapping_add` on `u32` / `usize`); raw pointers are modelled as `Nat` with
`0` playing the role of the null pointer.
-/

namespace CkRust

/-! ### Treiber stack — `src/stack.rs`

`Stack<T>` holds a single atomic `head` pointer into a chain of intrusive
`StackEntry` nodes.  The data-model invariant (following `next` from `head`
terminates at null, no cycles) lets the chain be modelled as the list of the
payloads of its nodes, front = top.  `push` stores `entry.next := head` and
CASes `head` to the entry (one iteration, sequentially); `pop` returns the
head node and CASes `head` to `head.next`, or returns `None` on null head. -/

structure Stack (α : Type) where
  head : List α
deriving DecidableEq, Repr

def Stack.new {α : Type} : Stack α := ⟨[]⟩

def Stack.push {α : Type} (s : Stack α) (v : α) : Stack α := ⟨v :: s.head⟩

def Stack.pop {α : Type} (s : Stack α) : Option α × Stack α :=
  match s.head with
  | [] => (none, s)
  | h :: t => (some h, ⟨t⟩)

/-- Push every value of `vs`, in order, onto `s` (`push` once per value). -/
def Stack.pushAll {α : Type} (s : Stack α) (vs : List α) : Stack α :=
  vs.foldl Stack.push s

/-- Pop `n` times in a row; collects the values of the successful pops in
order (a pop of an empty stack contributes nothing). -/
def Stack.popN {α : Type} (s : Stack α) : ℕ → List α × Stack α
  | 0 => ([], s)
  | n + 1 =>
    match s.pop with
    | (r, s') =>
      match s'.popN n with
      | (rs, sf) => (r.toList ++ rs, sf)

/-- A single-threaded step against the stack: a push of a value or a pop. -/
inductive StackOp (α : Type) where
  | push (v : α)
  | pop
deriving DecidableEq, Repr

/-- Run a sequence of operations; returns the final stack and the values
returned by the successful pops, in order. -/
def Stack.runOps {α : Type} (s : Stack α) : List (StackOp α) → Stack α × List α
  | [] => (s, [])
  | StackOp.push v :: ops => (s.push v).runOps ops
  | StackOp.pop :: ops =>
    match s.pop with
    | (r, s') =>
      match s'.runOps ops with
      | (sf, outs) => (sf, r.toList ++ outs)

/-- The values pushed by a sequence of operations, in order. -/
def StackOp.pushedVals {α : Type} (ops : List (StackOp α)) : List α :=
  ops.filterMap fun op =>
    match op with
    | StackOp.push v => some v
    | StackOp.pop => none

/-! ### SPSC ring — `src/ring.rs`

`SpscRing<T, N>` is a fixed array of `N` slots with `head`/`tail` indices,
both always `< N` because every advance masks with `N - 1` (`N` a power of
two).  The slots are modelled as a list of length `N`; an uninitialised slot
is modelled as holding `0` (its content is never observed).  `enqueue` fails
with `Err(item)` when `(tail + 1) & (N - 1)` equals `head`, else writes the
slot at `tail` and advances `tail`; `dequeue` fails with `None` when
`head = tail`, else reads the slot at `head` and advances `head`. -/

structure SpscRing (N : ℕ) where
  buffer : List ℕ
  head : ℕ
  tail : ℕ
deriving DecidableEq, Repr

def SpscRing.new (N : ℕ) : SpscRing N := ⟨List.replicate N 0, 0, 0⟩

def SpscRing.enqueue {N : ℕ} (s : SpscRing N) (item : ℕ) :
    Except ℕ (SpscRing N) :=
  let next_tail := (s.tail + 1) &&& (N - 1)
  if next_tail = s.head then Except.error item
  else Except.ok ⟨s.buffer.set s.tail item, s.head, next_tail⟩

def SpscRing.dequeue {N : ℕ} (s : SpscRing N) : Option (ℕ × SpscRing N) :=
  if s.head = s.tail then none
  else some (s.buffer.getD s.head 0, ⟨s.buffer, (s.head + 1) &&& (N - 1), s.tail⟩)

/-- The logical element count of the ring: the number of slots written but
not yet consumed, i.e. how far `tail` is ahead of `head` modulo `N`. -/
def SpscRing.count {N : ℕ} (s : SpscRing N) : ℕ := (s.tail + N - s.head) % N

/-- A single-threaded step against the ring. -/
inductive RingOp where
  | enq (v : ℕ)
  | deq
deriving DecidableEq, Repr

/-- The outcome a ring operation reports to the caller. -/
inductive RingObs where
  | ok
  | full
  | val (v : ℕ)
  | empty
deriving DecidableEq, Repr

/-- Run a sequence of ring operations, recording each outcome. -/
def SpscRing.run {N : ℕ} (s : SpscRing N) :
    List RingOp → SpscRing N × List RingObs
  | [] => (s, [])
  | RingOp.enq v :: ops =>
    match s.enqueue v with
    | Except.ok s' =>
      match s'.run ops with
      | (sf, os) => (sf, RingObs.ok :: os)
    | Except.error _ =>
      match s.run ops with
      | (sf, os) => (sf, RingObs.full :: os)
  | RingOp.deq :: ops =>
    match s.dequeue with
    | some (v, s') =>
      match s'.run ops with
      | (sf, os) => (sf, RingObs.val v :: os)
    | none =>
      match s.run ops with
      | (sf, os) => (sf, RingObs.empty :: os)

/-! ### Seqlock — `src/sequence.rs`

`SeqLock` is a single `AtomicU32` counter, initially `0`.  `write_begin` and
`write_end` each store `sequence.wrapping_add(1)`; `read_retry v` reloads the
counter and reports whether it differs from `v`.  `read_begin` spins until the
counter is observed even and returns it; the spin on an odd counter (only
possible mid-write) is modelled as `none`, the even exit as `some`. -/

structure SeqLock where
  sequence : ℕ
deriving DecidableEq, Repr

def SeqLock.new : SeqLock := ⟨0⟩

def SeqLock.readBegin (s : SeqLock) : Option ℕ :=
  if s.sequence % 2 = 0 then some s.sequence else none

def SeqLock.readRetry (s : SeqLock) (version : ℕ) : Bool :=
  s.sequence ≠ version

def SeqLock.writeBegin (s : SeqLock) : SeqLock :=
  ⟨(s.sequence + 1) % 2 ^ 32⟩

def SeqLock.writeEnd (s : SeqLock) : SeqLock :=
  ⟨(s.sequence + 1) % 2 ^ 32⟩

/-- One complete `write_begin(); write_end();` pair. -/
def SeqLock.writePair (s : SeqLock) : SeqLock := s.writeBegin.writeEnd

/-- The lock after `n` complete write pairs starting from `SeqLock::new()`. -/
def SeqLock.writePairs : ℕ → SeqLock
  | 0 => SeqLock.new
  | n + 1 => (SeqLock.writePairs n).writePair

/-! ### Epoch-based reclamation — `src/epoch.rs`

`Epoch::try_advance` loads the global epoch, walks the linked list of
registered `EpochRecord`s, and returns `false` at the first record whose
`active` count is non-zero and whose local `epoch` differs from the global
one; if the walk completes it CASes the global epoch to
`global.wrapping_add(1)` (`usize` arithmetic).  Sequentially the CAS always
succeeds, so `try_advance` then returns `true`. -/

structure EpochRecord where
  epoch : ℕ
  active : ℕ
deriving DecidableEq, Repr

structure EpochState where
  globalEpoch : ℕ
  records : List EpochRecord
deriving DecidableEq, Repr

/-- The record walk of `try_advance`: `false` at the first active record
whose local epoch differs from `global`, `true` if none is found. -/
def Epoch.checkRecords (global : ℕ) : List EpochRecord → Bool
  | [] => true
  | r :: rs =>
    if r.active ≠ 0 then
      if r.epoch ≠ global then false else Epoch.checkRecords global rs
    else Epoch.checkRecords global rs

def Epoch.tryAdvance (s : EpochState) : Bool × EpochState :=
  if Epoch.checkRecords s.globalEpoch s.records then
    (true, { s with globalEpoch := (s.globalEpoch + 1) % 2 ^ 64 })
  else
    (false, s)

/-! ### Hazard pointers — `src/hp.rs`

A per-thread `HpRecord` has `HP_PER_THREAD = 4` hazard slots (raw pointers,
null modelled as `0`), an `active` count and a retire list.
`collect_hazards` gathers every non-null slot of every record whose `active`
count is non-zero; `scan` retains exactly the retired pointers found in that
set and frees (in list order) every other one; `retire` pushes the pointer
onto the list and invokes `scan` once the list length reaches
`SCAN_THRESHOLD = 2 * HP_PER_THREAD`. -/

def HP_PER_THREAD : ℕ := 4

def SCAN_THRESHOLD : ℕ := 2 * HP_PER_THREAD

structure HpRecord where
  hazards : List ℕ
  active : ℕ
  retireList : List ℕ
deriving DecidableEq, Repr

def HpRecord.new : HpRecord :=
  ⟨List.replicate HP_PER_THREAD 0, 1, []⟩

def collectHazards : List HpRecord → List ℕ
  | [] => []
  | r :: rs =>
    (if r.active ≠ 0 then r.hazards.filter (fun p => p ≠ 0) else []) ++
      collectHazards rs

/-- The `retain` of `scan` over a retire list, against the hazard set `H`:
returns the retained list and the freed pointers, each in list order. -/
def scanRetire (H : List ℕ) : List ℕ → List ℕ × List ℕ
  | [] => ([], [])
  | p :: ps =>
    match scanRetire H ps with
    | (keep, freed) =>
      if p ∈ H then (p :: keep, freed) else (keep, p :: freed)

/-- `HpGuard::scan` acting on the guard's retire list, with the hazard slots
of all records (the guard's own record among them) as they stand at the time
of the scan. -/
def HpGuard.scan (records : List HpRecord) (retire : List ℕ) :
    List ℕ × List ℕ :=
  scanRetire (collectHazards records) retire

/-- `HpGuard::retire`: push onto the retire list, then scan when the list
length reaches `SCAN_THRESHOLD`.  Returns the new retire list and the
pointers freed by the embedded scan (none if no scan ran). -/
def HpGuard.retire (records : List HpRecord) (retire : List ℕ) (p : ℕ) :
    List ℕ × List ℕ :=
  let retire' := retire ++ [p]
  if SCAN_THRESHOLD ≤ retire'.length then HpGuard.scan records retire'
  else (retire', [])

/-- `HpGuard::protect(slot, ptr)`: out-of-range slots return `None` and touch
nothing; otherwise the pointer is stored into the slot and `Some(slot)` is
returned. -/
def HpGuard.protect (r : HpRecord) (slot : ℕ) (ptr : ℕ) :
    Option ℕ × HpRecord :=
  if HP_PER_THREAD ≤ slot then (none, r)
  else (some slot, { r with hazards := r.hazards.set slot ptr })

/-- `HpGuard::clear(slot)`: store null into the slot when it is in range. -/
def HpGuard.clear (r : HpRecord) (slot : ℕ) : HpRecord :=
  if slot < HP_PER_THREAD then { r with hazards := r.hazards.set slot 0 }
  else r

/-! ### Ticket lock — `src/spinlock.rs`

`TicketLock` holds `next_ticket` and `now_serving` (`usize`).  `try_lock`
loads both; only when they agree does it CAS `next_ticket` to `ticket + 1`
(sequentially the CAS succeeds) and hand out a guard; otherwise it returns
`None` with both counters untouched.  Dropping the guard fetch-adds
`now_serving`. -/

structure TicketLock where
  nextTicket : ℕ
  nowServing : ℕ
deriving DecidableEq, Repr

def TicketLock.new : TicketLock := ⟨0, 0⟩

/-- `try_lock`: `(true, s')` models `Some(guard)` over the new state,
`(false, s)` models `None`. -/
def TicketLock.tryLock (s : TicketLock) : Bool × TicketLock :=
  if s.nextTicket = s.nowServing then
    (true, { s with nextTicket := (s.nextTicket + 1) % 2 ^ 64 })
  else
    (false, s)

/-- `TicketLockGuard::drop`: release-increment of `now_serving`. -/
def TicketLock.unlock (s : TicketLock) : TicketLock :=
  { s with nowServing := (s.nowServing + 1) % 2 ^ 64 }

/-! ### Exponential backoff — `src/backoff.rs`

`Backoff` stores a single `u32` field `value`.  `new()` starts it at
`BACKOFF_INITIAL = 1 << 9`; `with_initial(c)` starts it at `c`;
`reset()` stores `BACKOFF_INITIAL`; `spin()` delays, then — when the value is
below `BACKOFF_CEILING = (1 << 20) - 1` — stores
`value.saturating_mul(2).min(BACKOFF_CEILING)`. -/

def BACKOFF_INITIAL : ℕ := 2 ^ 9

def BACKOFF_CEILING : ℕ := 2 ^ 20 - 1

structure Backoff where
  value : ℕ
deriving DecidableEq, Repr

def Backoff.new : Backoff := ⟨BACKOFF_INITIAL⟩

def Backoff.withInitial (c : ℕ) : Backoff := ⟨c⟩

def Backoff.reset (_ : Backoff) : Backoff := ⟨BACKOFF_INITIAL⟩

def Backoff.spin (b : Backoff) : Backoff :=
  if b.value < BACKOFF_CEILING then
    ⟨min (min (b.value * 2) (2 ^ 32 - 1)) BACKOFF_CEILING⟩
  else b

/-! ### SPSC FIFO — `src/fifo.rs`

`SpscFifo<T>` keeps `head`/`tail` pointers into a singly-linked chain of
`FifoEntry` nodes; `enqueue` links the entry after `tail` (or installs it as
`head` when the queue is empty) and moves `tail` to it, `dequeue` unlinks and
returns the `head` node (clearing `tail` when it was the last one) or returns
`None` on a null head.  The chain is modelled as the list of payloads from
head to tail. -/

structure SpscFifo where
  queue : List ℕ
deriving DecidableEq, Repr

def SpscFifo.new : SpscFifo := ⟨[]⟩

def SpscFifo.enqueue (s : SpscFifo) (v : ℕ) : SpscFifo := ⟨s.queue ++ [v]⟩

def SpscFifo.dequeue (s : SpscFifo) : Option ℕ × SpscFifo :=
  match s.queue with
  | [] => (none, s)
  | h :: t => (some h, ⟨t⟩)

/-- A single-threaded step against the FIFO. -/
inductive FifoOp where
  | enq (v : ℕ)
  | deq
deriving DecidableEq, Repr

/-- Run a sequence of FIFO operations; returns the final queue and the values
returned by the successful dequeues, in order. -/
def SpscFifo.runOps (s : SpscFifo) : List FifoOp → SpscFifo × List ℕ
  | [] => (s, [])
  | FifoOp.enq v :: ops => (s.enqueue v).runOps ops
  | FifoOp.deq :: ops =>
    match s.dequeue with
    | (r, s') =>
      match s'.runOps ops with
      | (sf, outs) => (sf, r.toList ++ outs)

/-- The values enqueued by a sequence of FIFO operations, in order. -/
def FifoOp.enqueuedVals (ops : List FifoOp) : List ℕ :=
  ops.filterMap fun op =>
    match op with
    | FifoOp.enq v => some v
    | FifoOp.deq => none

/-! ### Bitmap — `src/bitmap.rs`

`Bitmap<N>` is an array of `N` atomic words of `BITS_PER_WORD = 64` bits
(64-bit platform).  Every operation computes `word = index / 64` and
`bit = index % 64` and returns `false` without touching the array when
`word >= N`; otherwise it operates on bit `bit` of word `word`, returning the
bit's previous value.  Rust's `!mask` on a word is `mask ^ (2^64 - 1)`. -/

def BITS_PER_WORD : ℕ := 64

structure Bitmap where
  words : List ℕ
deriving DecidableEq, Repr

def Bitmap.get (b : Bitmap) (index : ℕ) : Bool :=
  let word := index / BITS_PER_WORD
  let bit := index % BITS_PER_WORD
  if b.words.length ≤ word then false
  else (b.words.getD word 0) &&& (1 <<< bit) ≠ 0

def Bitmap.set (b : Bitmap) (index : ℕ) : Bool × Bitmap :=
  let word := index / BITS_PER_WORD
  let bit := index % BITS_PER_WORD
  if b.words.length ≤ word then (false, b)
  else
    let mask := 1 <<< bit
    let old := b.words.getD word 0
    ((old &&& mask ≠ 0 : Bool), ⟨b.words.set word (old ||| mask)⟩)

def Bitmap.clear (b : Bitmap) (index : ℕ) : Bool × Bitmap :=
  let word := index / BITS_PER_WORD
  let bit := index % BITS_PER_WORD
  if b.words.length ≤ word then (false, b)
  else
    let mask := 1 <<< bit
    let old := b.words.getD word 0
    ((old &&& mask ≠ 0 : Bool), ⟨b.words.set word (old &&& (mask ^^^ (2 ^ 64 - 1)))⟩)

def Bitmap.toggle (b : Bitmap) (index : ℕ) : Bool × Bitmap :=
  let word := index / BITS_PER_WORD
  let bit := index % BITS_PER_WORD
  if b.words.length ≤ word then (false, b)
  else
    let mask := 1 <<< bit
    let old := b.words.getD word 0
    ((old &&& mask ≠ 0 : Bool), ⟨b.words.set word (old ^^^ mask)⟩)

/-! ## Lemmas and claim theorems -/

lemma Stack.pop_push {α : Type} (s : Stack α) (v : α) :
    (s.push v).pop = (some v, s) := rfl

lemma Stack.pushAll_append {α : Type} (s : Stack α) (vs : List α) (v : α) :
    s.pushAll (vs ++ [v]) = (s.pushAll vs).push v := by
  simp [Stack.pushAll]

lemma Stack.popN_pushAll {α : Type} (vs : List α) :
    ∀ s : Stack α, (s.pushAll vs).popN vs.length = (vs.reverse, s) := by
  induction vs using List.reverseRecOn with
  | nil => intro s; simp [Stack.pushAll, Stack.popN]
  | append_singleton vs v ih =>
    intro s
    rw [Stack.pushAll_append]
    have hlen : (vs ++ [v]).length = vs.length + 1 := by simp
    rw [hlen]
    simp only [Stack.popN, Stack.pop_push, ih s]
    simp

lemma Stack.runOps_pushed_popped (ops : List (StackOp ℕ)) :
    ∀ s : Stack ℕ,
      (↑(StackOp.pushedVals ops) + ↑s.head : Multiset ℕ) =
        ↑(s.runOps ops).2 + ↑(s.runOps ops).1.head := by
  induction ops with
  | nil => intro s; simp [Stack.runOps, StackOp.pushedVals]
  | cons op ops ih =>
    intro s
    cases op with
    | push v =>
      have h := ih (s.push v)
      simp only [Stack.runOps, StackOp.pushedVals, List.filterMap_cons,
        Stack.push] at h ⊢
      rw [← Multiset.cons_coe, Multiset.cons_add, ← h, ← Multiset.cons_coe,
        Multiset.add_cons]
    | pop =>
      rcases s with ⟨_ | ⟨h, t⟩⟩
      · have hh := ih ⟨[]⟩
        simp only [Stack.runOps, Stack.pop, StackOp.pushedVals,
          List.filterMap_cons] at hh ⊢
        simpa using hh
      · have hh := ih ⟨t⟩
        simp only [Stack.runOps, Stack.pop, StackOp.pushedVals,
          List.filterMap_cons] at hh ⊢
        rcases hmatch : Stack.runOps ⟨t⟩ ops with ⟨sf, outs⟩
        rw [hmatch] at hh
        simp only [Option.toList]
        rw [← Multiset.cons_coe, Multiset.add_cons, hh, List.singleton_append,
          ← Multiset.cons_coe, Multiset.cons_add]

/-- C1: starting from a new stack, pushing 1, 2, 3 and popping four times
returns 3, 2, 1 and then nothing; in general pushing any list of values and
popping as many times returns exactly the pushed values in reverse (LIFO)
order and restores the starting stack, and over an arbitrary single-threaded
sequence of pushes and pops the pushed values are exactly the popped values
together with the values still on the stack (no duplicates, no omissions). -/
theorem C1_stack_lifo :
    ((Stack.new : Stack ℕ).pushAll [1, 2, 3]).popN 4 = ([3, 2, 1], Stack.new)
  ∧ (∀ (vs : List ℕ) (s : Stack ℕ),
      (s.pushAll vs).popN vs.length = (vs.reverse, s))
  ∧ (∀ ops : List (StackOp ℕ),
      (↑(StackOp.pushedVals ops) : Multiset ℕ) =
        ↑((Stack.new : Stack ℕ).runOps ops).2 +
          ↑((Stack.new : Stack ℕ).runOps ops).1.head) := by
  refine ⟨by decide, fun vs s => Stack.popN_pushAll vs s, fun ops => ?_⟩
  have h := Stack.runOps_pushed_popped ops Stack.new
  simpa [Stack.new] using h

lemma tail_succ_mod_cases {N t : ℕ} (ht : t < N) :
    (t + 1) % N = if t + 1 < N then t + 1 else 0 := by
  rcases lt_or_ge (t + 1) N with hlt | hge
  · rw [if_pos hlt, Nat.mod_eq_of_lt hlt]
  · have heq : t + 1 = N := by omega
    rw [if_neg (by omega), heq, Nat.mod_self]

lemma count_mod_cases {N h t : ℕ} (hh : h < N) (ht : t < N) :
    (t + N - h) % N = if h ≤ t then t - h else t + N - h := by
  rcases le_or_lt h t with hle | hlt
  · rw [if_pos hle]
    have h1 : t + N - h = t - h + N := by omega
    rw [h1, Nat.add_mod_right]
    exact Nat.mod_eq_of_lt (by omega)
  · rw [if_neg (by omega)]
    exact Nat.mod_eq_of_lt (by omega)

lemma SpscRing.enqueue_error_iff {N : ℕ} (s : SpscRing N) (v : ℕ) :
    s.enqueue v = Except.error v ↔ (s.tail + 1) &&& (N - 1) = s.head := by
  simp only [SpscRing.enqueue]
  split <;> simp_all

lemma SpscRing.dequeue_none_iff {N : ℕ} (s : SpscRing N) :
    s.dequeue = none ↔ s.head = s.tail := by
  simp only [SpscRing.dequeue]
  split <;> simp_all

/-- C2: on the ring of size `N = 4` (usable capacity 3), enqueues of 1, 2, 3
succeed, a fourth enqueue reports FULL, a dequeue returns 1, an enqueue of 4
then succeeds, the following dequeues return 2, 3, 4 and the next reports
EMPTY; and for every power-of-two `N` and every ring state with in-range
indices, `enqueue` returns the full outcome iff the logical count is `N - 1`
and `dequeue` returns the empty outcome iff the logical count is 0. -/
theorem C2_ring_full_empty :
    ((SpscRing.new 4).run
        [RingOp.enq 1, RingOp.enq 2, RingOp.enq 3, RingOp.enq 4, RingOp.deq,
          RingOp.enq 4, RingOp.deq, RingOp.deq, RingOp.deq, RingOp.deq]).2 =
      [RingObs.ok, RingObs.ok, RingObs.ok, RingObs.full, RingObs.val 1,
        RingObs.ok, RingObs.val 2, RingObs.val 3, RingObs.val 4, RingObs.empty]
  ∧ (∀ (N k : ℕ), N = 2 ^ k → ∀ s : SpscRing N, s.head < N → s.tail < N →
      (∀ v, s.enqueue v = Except.error v ↔ s.count = N - 1)
      ∧ (s.dequeue = none ↔ s.count = 0)) := by
  constructor
  · decide
  · intro N k hk s hh ht
    have hN : 0 < N := hk ▸ Nat.pos_pow_of_pos k (by norm_num)
    have hmask : (s.tail + 1) &&& (N - 1) = (s.tail + 1) % N := by
      subst hk; exact Nat.and_pow_two_sub_one_eq_mod _ _
    constructor
    · intro v
      rw [SpscRing.enqueue_error_iff, hmask, SpscRing.count,
        tail_succ_mod_cases ht, count_mod_cases hh ht]
      split_ifs <;> omega
    · rw [SpscRing.dequeue_none_iff, SpscRing.count, count_mod_cases hh ht]
      split_ifs <;> omega

/-- Witness for C2 at the concrete ring of size 4 in its initial state. -/
theorem C2_ring_full_empty_witness :
    ((SpscRing.new 4).enqueue 9 = Except.error 9 ↔ (SpscRing.new 4).count = 3)
  ∧ ((SpscRing.new 4).dequeue = none ↔ (SpscRing.new 4).count = 0) := by
  have h := C2_ring_full_empty.2 4 2 (by norm_num) (SpscRing.new 4)
    (by decide) (by decide)
  exact ⟨h.1 9, h.2⟩

lemma SeqLock.writePairs_sequence (n : ℕ) :
    (SeqLock.writePairs n).sequence = 2 * n % 2 ^ 32 := by
  induction n with
  | zero => simp [SeqLock.writePairs, SeqLock.new]
  | succ n ih =>
    simp only [SeqLock.writePairs, SeqLock.writePair, SeqLock.writeBegin,
      SeqLock.writeEnd, ih, Nat.mod_add_mod]
    omega

lemma seq_parity_mod (x : ℕ) : x % 2 ^ 32 % 2 = x % 2 :=
  Nat.mod_mod_of_dvd x (by norm_num)

/-- C3 counterexample: the sequence counter is a `u32` and wraps, so after
`2 ^ 31` complete write pairs it holds `0`, not `2 * 2 ^ 31`. -/
theorem C3_seqlock_counterexample :
    (SeqLock.writePairs (2 ^ 31)).sequence = 0 ∧ 2 * 2 ^ 31 ≠ 0 := by
  refine ⟨?_, by norm_num⟩
  rw [SeqLock.writePairs_sequence]
  norm_num

/-- C3 (amended): the counter starts at 0; `write_begin` on an even counter
leaves it odd and `write_end` on an odd counter leaves it even; after `n`
complete write pairs the counter is `2 * n` **modulo `2 ^ 32`** (the counter
is a `u32` and wraps); `read_begin` on an even counter returns it; and
`read_retry v` returns true iff the counter now differs from `v`.  The
Scenario C trace holds as stated. -/
theorem C3_seqlock_amended :
    SeqLock.new.sequence = 0
  ∧ (∀ s : SeqLock, s.sequence % 2 = 0 → s.writeBegin.sequence % 2 = 1)
  ∧ (∀ s : SeqLock, s.sequence % 2 = 1 → s.writeEnd.sequence % 2 = 0)
  ∧ (∀ n : ℕ, (SeqLock.writePairs n).sequence = 2 * n % 2 ^ 32)
  ∧ (∀ s : SeqLock, s.sequence % 2 = 0 → s.readBegin = some s.sequence)
  ∧ (∀ (s : SeqLock) (v : ℕ), s.readRetry v = true ↔ s.sequence ≠ v)
  ∧ (SeqLock.new.readBegin = some 0
      ∧ SeqLock.new.writePair.sequence = 2
      ∧ SeqLock.new.writePair.readRetry 0 = true
      ∧ SeqLock.new.writePair.readBegin = some 2
      ∧ SeqLock.new.writePair.readRetry 2 = false) := by
  refine ⟨rfl, ?_, ?_, SeqLock.writePairs_sequence, ?_, ?_, by decide⟩
  · intro s hs
    simp only [SeqLock.writeBegin, seq_parity_mod]
    omega
  · intro s hs
    simp only [SeqLock.writeEnd, seq_parity_mod]
    omega
  · intro s hs
    simp [SeqLock.readBegin, hs]
  · intro s v
    simp [SeqLock.readRetry]

/-- Witness for C3: the parity, read and retry clauses at concrete states. -/
theorem C3_seqlock_amended_witness :
    (SeqLock.mk 2).writeBegin.sequence % 2 = 1
  ∧ (SeqLock.mk 3).writeEnd.sequence % 2 = 0
  ∧ (SeqLock.mk 2).readBegin = some 2
  ∧ ((SeqLock.mk 2).readRetry 0 = true ↔ (2 : ℕ) ≠ 0) := by
  refine ⟨C3_seqlock_amended.2.1 ⟨2⟩ (by norm_num),
    C3_seqlock_amended.2.2.1 ⟨3⟩ (by norm_num),
    C3_seqlock_amended.2.2.2.2.1 ⟨2⟩ (by norm_num),
    C3_seqlock_amended.2.2.2.2.2.1 ⟨2⟩ 0⟩

lemma Epoch.checkRecords_true_iff (global : ℕ) :
    ∀ rs : List EpochRecord,
      Epoch.checkRecords global rs = true ↔
        ∀ r ∈ rs, r.active ≠ 0 → r.epoch = global := by
  intro rs
  induction rs with
  | nil => simp [Epoch.checkRecords]
  | cons r rs ih =>
    simp only [Epoch.checkRecords]
    split_ifs with h1 h2 <;> simp_all

/-- C4: `try_advance` returns false and leaves the global epoch unchanged
whenever some registered record with a non-zero active count has a local
epoch different from the current global epoch; when every active record
agrees with the global epoch, it advances the global epoch by one (`usize`
arithmetic) and reports that the advance succeeded. -/
theorem C4_epoch_try_advance :
    ∀ s : EpochState,
      ((∃ r ∈ s.records, 1 ≤ r.active ∧ r.epoch ≠ s.globalEpoch) →
        Epoch.tryAdvance s = (false, s))
    ∧ ((∀ r ∈ s.records, 1 ≤ r.active → r.epoch = s.globalEpoch) →
        Epoch.tryAdvance s =
          (true, { s with globalEpoch := (s.globalEpoch + 1) % 2 ^ 64 })) := by
  intro s
  constructor
  · rintro ⟨r, hr, hact, hne⟩
    have hfalse : Epoch.checkRecords s.globalEpoch s.records = false := by
      rw [← Bool.not_eq_true, Epoch.checkRecords_true_iff]
      push_neg
      exact ⟨r, hr, by omega, hne⟩
    simp [Epoch.tryAdvance, hfalse]
  · intro hall
    have htrue : Epoch.checkRecords s.globalEpoch s.records = true := by
      rw [Epoch.checkRecords_true_iff]
      intro r hr hact
      exact hall r hr (by omega)
    simp [Epoch.tryAdvance, htrue]

/-- Witness for C4: a second record pinned (active) at epoch 0 while the
global epoch is 1 blocks the advance; with every active record caught up the
advance succeeds. -/
theorem C4_epoch_try_advance_witness :
    Epoch.tryAdvance ⟨1, [⟨1, 0⟩, ⟨0, 1⟩]⟩ = (false, ⟨1, [⟨1, 0⟩, ⟨0, 1⟩]⟩)
  ∧ Epoch.tryAdvance ⟨1, [⟨1, 0⟩, ⟨1, 1⟩]⟩ = (true, ⟨2, [⟨1, 0⟩, ⟨1, 1⟩]⟩) := by
  constructor
  · exact (C4_epoch_try_advance ⟨1, [⟨1, 0⟩, ⟨0, 1⟩]⟩).1 (by decide)
  · exact (C4_epoch_try_advance ⟨1, [⟨1, 0⟩, ⟨1, 1⟩]⟩).2 (by decide)

lemma scanRetire_count (H : List ℕ) (p : ℕ) :
    ∀ l : List ℕ,
      (scanRetire H l).1.count p = (if p ∈ H then l.count p else 0)
    ∧ (scanRetire H l).2.count p = (if p ∈ H then 0 else l.count p) := by
  intro l
  induction l with
  | nil => simp [scanRetire]
  | cons q ps ih =>
    simp only [scanRetire]
    rcases hrec : scanRetire H ps with ⟨keep, freed⟩
    rw [hrec] at ih
    by_cases hq : q ∈ H <;> by_cases hpq : p = q <;>
      simp_all [List.count_cons]

lemma mem_collectHazards {p : ℕ} (hp : p ≠ 0) :
    ∀ records : List HpRecord,
      p ∈ collectHazards records ↔
        ∃ r ∈ records, r.active ≠ 0 ∧ p ∈ r.hazards := by
  intro records
  induction records with
  | nil => simp [collectHazards]
  | cons r rs ih =>
    by_cases hact : r.active ≠ 0
    · simp only [collectHazards, if_pos hact, List.mem_append, List.mem_filter,
        ih, List.mem_cons]
      constructor
      · rintro (⟨hmem, -⟩ | ⟨r', hr', h1, h2⟩)
        · exact ⟨r, Or.inl rfl, hact, hmem⟩
        · exact ⟨r', Or.inr hr', h1, h2⟩
      · rintro ⟨r', hr' | hr', h1, h2⟩
        · subst hr'
          exact Or.inl ⟨h2, by simpa using hp⟩
        · exact Or.inr ⟨r', hr', h1, h2⟩
    · simp only [collectHazards, if_neg hact, List.nil_append, ih,
        List.mem_cons]
      push_neg at hact
      constructor
      · rintro ⟨r', hr', h1, h2⟩
        exact ⟨r', Or.inr hr', h1, h2⟩
      · rintro ⟨r', hr' | hr', h1, h2⟩
        · subst hr'
          exact absurd hact h1
        · exact ⟨r', hr', h1, h2⟩

/-- C5: a `scan` never frees a (non-null) retired pointer that sits in a
hazard slot of some active record at the time of the scan — every occurrence
stays on the retire list — and it frees every retired pointer absent from all
such slots as often as it was retired (hence exactly once for a
singly-retired pointer), removing it from the retire list; in particular
`retire(p)` on an empty retire list triggers no scan (the threshold is 8),
and the following `scan` with no slot holding `p` frees exactly `p`. -/
theorem C5_hp_scan :
    ∀ (records : List HpRecord) (retire : List ℕ) (p : ℕ), p ≠ 0 →
      ((∃ r ∈ records, r.active ≠ 0 ∧ p ∈ r.hazards) →
          (HpGuard.scan records retire).2.count p = 0
        ∧ (HpGuard.scan records retire).1.count p = retire.count p)
    ∧ ((¬ ∃ r ∈ records, r.active ≠ 0 ∧ p ∈ r.hazards) →
          (HpGuard.scan records retire).2.count p = retire.count p
        ∧ p ∉ (HpGuard.scan records retire).1)
    ∧ HpGuard.retire records [] p = ([p], [])
    ∧ ((¬ ∃ r ∈ records, r.active ≠ 0 ∧ p ∈ r.hazards) →
          HpGuard.scan records [p] = ([], [p])) := by
  intro records retire p hp
  have hcnt := scanRetire_count (collectHazards records) p retire
  have hmem := mem_collectHazards hp records
  refine ⟨?_, ?_, ?_, ?_⟩
  · intro hhaz
    have hin : p ∈ collectHazards records := hmem.mpr hhaz
    exact ⟨by simpa [HpGuard.scan, hin] using hcnt.2,
      by simpa [HpGuard.scan, hin] using hcnt.1⟩
  · intro hhaz
    have hout : p ∉ collectHazards records := fun hin => hhaz (hmem.mp hin)
    have h1 := hcnt.1
    have h2 := hcnt.2
    rw [if_neg hout] at h1 h2
    exact ⟨h2, by rw [← List.count_eq_zero, HpGuard.scan]; exact h1⟩
  · simp [HpGuard.retire, SCAN_THRESHOLD, HP_PER_THREAD]
  · intro hhaz
    have hout : p ∉ collectHazards records := fun hin => hhaz (hmem.mp hin)
    simp [HpGuard.scan, scanRetire, hout]

/-- Witness for C5: one active record protecting pointer 5; the retired
pointer 7 is in no hazard slot, so a scan frees it exactly once and removes
it from the retire list. -/
theorem C5_hp_scan_witness :
    (HpGuard.scan [⟨[5, 0, 0, 0], 1, []⟩] [7]).2.count 7 = [(7 : ℕ)].count 7
  ∧ (7 : ℕ) ∉ (HpGuard.scan [⟨[5, 0, 0, 0], 1, []⟩] [7]).1
  ∧ HpGuard.retire [⟨[5, 0, 0, 0], 1, []⟩] [] 7 = ([7], []) := by
  have h := C5_hp_scan [⟨[5, 0, 0, 0], 1, []⟩] [7] 7 (by norm_num)
  have h2 := h.2.1 (by decide)
  exact ⟨h2.1, h2.2, h.2.2.1⟩

/-- C6: `try_lock` hands out a guard exactly when the observed `next_ticket`
equals `now_serving` (the bumping CAS, reached with no interference, then
succeeds); in every other case it returns `None` and leaves both counters
unchanged.  Single-threaded scenario: `try_lock` succeeds on an unheld lock,
fails while the lock is held, and succeeds again after the guard is
dropped. -/
theorem C6_ticket_try_lock :
    (∀ s : TicketLock,
        (s.tryLock.1 = true ↔ s.nextTicket = s.nowServing)
      ∧ (s.nextTicket ≠ s.nowServing → s.tryLock = (false, s)))
  ∧ (TicketLock.new.tryLock = (true, ⟨1, 0⟩)
      ∧ (TicketLock.mk 1 0).tryLock = (false, ⟨1, 0⟩)
      ∧ (TicketLock.mk 1 0).unlock = ⟨1, 1⟩
      ∧ (TicketLock.mk 1 1).tryLock = (true, ⟨2, 1⟩)) := by
  constructor
  · intro s
    constructor
    · simp only [TicketLock.tryLock]
      split <;> simp_all
    · intro hne
      simp [TicketLock.tryLock, hne]
  · refine ⟨by decide, by decide, by decide, by decide⟩

/-- Witness for C6: on a held lock (`next_ticket = 1`, `now_serving = 0`)
`try_lock` fails and changes nothing. -/
theorem C6_ticket_try_lock_witness :
    (TicketLock.mk 3 7).tryLock = (false, TicketLock.mk 3 7) :=
  (C6_ticket_try_lock.1 (TicketLock.mk 3 7)).2 (by decide)

/-- C7 counterexample: `reset` stores the default `BACKOFF_INITIAL = 512`,
not the instance's own initial value, so a backoff constructed with
`with_initial(7)` does not return to 7 on `reset`. -/
theorem C7_backoff_counterexample :
    (Backoff.withInitial 7).value = 7
  ∧ ((Backoff.withInitial 7).reset).value = 512
  ∧ (512 : ℕ) ≠ 7 := by
  decide

/-- C7 (amended): `reset` sets the backoff value to the default initial value
`BACKOFF_INITIAL = 512` regardless of how the instance was constructed, so
`reset(); spin(); reset();` always ends with value 512 — equal to the state
the instance was constructed with exactly when that construction used the
default initial value (as `Backoff::new()` does). -/
theorem C7_backoff_reset_amended :
    (∀ b : Backoff, b.reset.value = BACKOFF_INITIAL)
  ∧ (∀ b : Backoff, b.reset.spin.reset.value = BACKOFF_INITIAL)
  ∧ Backoff.new.reset.spin.reset = Backoff.new
  ∧ (Backoff.withInitial 7).reset.spin.reset ≠ Backoff.withInitial 7 := by
  exact ⟨fun b => rfl, fun b => rfl, by decide, by decide⟩

lemma FifoOp.enqueuedVals_cons_enq (v : ℕ) (ops : List FifoOp) :
    FifoOp.enqueuedVals (FifoOp.enq v :: ops) = v :: FifoOp.enqueuedVals ops :=
  rfl

lemma FifoOp.enqueuedVals_cons_deq (ops : List FifoOp) :
    FifoOp.enqueuedVals (FifoOp.deq :: ops) = FifoOp.enqueuedVals ops :=
  rfl

lemma SpscFifo.runOps_deq_nil (ops : List FifoOp) :
    (SpscFifo.mk []).runOps (FifoOp.deq :: ops) =
      (SpscFifo.mk []).runOps ops := by
  simp only [SpscFifo.runOps, SpscFifo.dequeue]
  rcases hq : (SpscFifo.mk []).runOps ops with ⟨sf, outs⟩
  simp

lemma SpscFifo.runOps_deq_cons (h : ℕ) (t : List ℕ) (ops : List FifoOp) :
    (SpscFifo.mk (h :: t)).runOps (FifoOp.deq :: ops) =
      (((SpscFifo.mk t).runOps ops).1,
        h :: ((SpscFifo.mk t).runOps ops).2) := by
  simp only [SpscFifo.runOps, SpscFifo.dequeue]
  rcases hq : (SpscFifo.mk t).runOps ops with ⟨sf, outs⟩
  simp

lemma SpscFifo.runOps_enq_deq (ops : List FifoOp) :
    ∀ s : SpscFifo,
      s.queue ++ FifoOp.enqueuedVals ops =
        (s.runOps ops).2 ++ (s.runOps ops).1.queue := by
  induction ops with
  | nil => intro s; simp [SpscFifo.runOps, FifoOp.enqueuedVals]
  | cons op ops ih =>
    intro s
    cases op with
    | enq v =>
      rw [FifoOp.enqueuedVals_cons_enq]
      have h := ih (s.enqueue v)
      simp only [SpscFifo.enqueue] at h
      show s.queue ++ v :: FifoOp.enqueuedVals ops =
        ((s.enqueue v).runOps ops).2 ++ ((s.enqueue v).runOps ops).1.queue
      simp only [SpscFifo.enqueue]
      rw [← h]
      simp
    | deq =>
      rw [FifoOp.enqueuedVals_cons_deq]
      rcases s with ⟨_ | ⟨h, t⟩⟩
      · rw [SpscFifo.runOps_deq_nil]
        exact ih ⟨[]⟩
      · rw [SpscFifo.runOps_deq_cons]
        simp [ih ⟨t⟩]

lemma SpscFifo.runOps_append (l1 l2 : List FifoOp) :
    ∀ s : SpscFifo,
      s.runOps (l1 ++ l2) =
        (((s.runOps l1).1.runOps l2).1,
          (s.runOps l1).2 ++ ((s.runOps l1).1.runOps l2).2) := by
  induction l1 with
  | nil => intro s; simp [SpscFifo.runOps]
  | cons op l1 ih =>
    intro s
    cases op with
    | enq v =>
      simp only [List.cons_append, SpscFifo.runOps]
      exact ih (s.enqueue v)
    | deq =>
      rcases s with ⟨_ | ⟨h, t⟩⟩
      · simp only [List.cons_append, SpscFifo.runOps_deq_nil]
        exact ih ⟨[]⟩
      · simp only [List.cons_append, SpscFifo.runOps_deq_cons, ih ⟨t⟩]

lemma SpscFifo.runOps_enqAll (vs : List ℕ) :
    ∀ s : SpscFifo, s.runOps (vs.map FifoOp.enq) = (⟨s.queue ++ vs⟩, []) := by
  induction vs with
  | nil => intro s; simp [SpscFifo.runOps]
  | cons v vs ih =>
    intro s
    simp only [List.map_cons, SpscFifo.runOps]
    rw [ih (s.enqueue v)]
    simp [SpscFifo.enqueue]

lemma SpscFifo.runOps_drain :
    ∀ q : List ℕ,
      (SpscFifo.mk q).runOps (List.replicate (q.length + 1) FifoOp.deq) =
        (SpscFifo.mk [], q) := by
  intro q
  induction q with
  | nil => decide
  | cons h t ih =>
    rw [List.length_cons, List.replicate_succ, SpscFifo.runOps_deq_cons, ih]

/-- C8: over every single-threaded sequence of enqueues and dequeues the
enqueued values are exactly the dequeued values followed by the values still
queued (so dequeued values equal enqueued values in order, with no
duplicates and no omissions); a further dequeue returns `None` exactly when
every enqueued value has already been dequeued; and enqueueing any list of
values then dequeueing returns exactly that list, in order, and then
`None`. -/
theorem C8_fifo_order :
    (∀ ops : List FifoOp,
      FifoOp.enqueuedVals ops =
        (SpscFifo.new.runOps ops).2 ++ (SpscFifo.new.runOps ops).1.queue)
  ∧ (∀ ops : List FifoOp,
      ((SpscFifo.new.runOps ops).1.dequeue).1 = none ↔
        (SpscFifo.new.runOps ops).2 = FifoOp.enqueuedVals ops)
  ∧ (∀ vs : List ℕ,
      SpscFifo.new.runOps
          (vs.map FifoOp.enq ++ List.replicate (vs.length + 1) FifoOp.deq) =
        (SpscFifo.new, vs)) := by
  refine ⟨?_, ?_, ?_⟩
  · intro ops
    have h := SpscFifo.runOps_enq_deq ops SpscFifo.new
    simpa [SpscFifo.new] using h
  · intro ops
    have h := SpscFifo.runOps_enq_deq ops SpscFifo.new
    rcases hrun : SpscFifo.new.runOps ops with ⟨⟨F⟩, D⟩
    rw [hrun] at h
    simp only [SpscFifo.new, List.nil_append] at h
    cases F with
    | nil =>
      simp [SpscFifo.dequeue, h]
    | cons f fs =>
      simp only [SpscFifo.dequeue, h]
      constructor
      · intro habs
        exact absurd habs (by simp)
      · intro heq
        have hlen := congrArg List.length heq
        simp at hlen
  · intro vs
    simp [SpscFifo.runOps_append, SpscFifo.runOps_enqAll,
      SpscFifo.runOps_drain, SpscFifo.new]

/-- C9: every bitmap operation called with an index whose word offset is out
of range (`index ≥ N * 64` for `N` words) is a total no-op: it returns
`false` and leaves the bitmap unchanged. -/
theorem C9_bitmap_out_of_range :
    ∀ (b : Bitmap) (i : ℕ), b.words.length * BITS_PER_WORD ≤ i →
      b.get i = false
    ∧ b.set i = (false, b)
    ∧ b.clear i = (false, b)
    ∧ b.toggle i = (false, b) := by
  intro b i hi
  have hw : b.words.length ≤ i / BITS_PER_WORD := by
    rw [Nat.le_div_iff_mul_le (by norm_num [BITS_PER_WORD] : 0 < BITS_PER_WORD)]
    exact hi
  refine ⟨?_, ?_, ?_, ?_⟩ <;>
    simp [Bitmap.get, Bitmap.set, Bitmap.clear, Bitmap.toggle, hw]

/-- Witness for C9: a one-word bitmap with index 64. -/
theorem C9_bitmap_out_of_range_witness :
    (Bitmap.mk [3]).get 64 = false
  ∧ (Bitmap.mk [3]).set 64 = (false, Bitmap.mk [3])
  ∧ (Bitmap.mk [3]).clear 64 = (false, Bitmap.mk [3])
  ∧ (Bitmap.mk [3]).toggle 64 = (false, Bitmap.mk [3]) :=
  C9_bitmap_out_of_range (Bitmap.mk [3]) 64 (by norm_num [BITS_PER_WORD])

/-- C10: `protect(slot, ptr)` with `slot ≥ 4` returns `None` and writes
nothing, and `clear(slot)` with `slot ≥ 4` changes nothing; for `slot < 4`,
`protect` stores the pointer into that slot and returns `Some(slot)`, and
`clear` stores null into that slot. -/
theorem C10_hp_protect_clear :
    ∀ (r : HpRecord) (slot ptr : ℕ),
      (HP_PER_THREAD ≤ slot →
          HpGuard.protect r slot ptr = (none, r) ∧ HpGuard.clear r slot = r)
    ∧ (slot < HP_PER_THREAD →
          HpGuard.protect r slot ptr =
            (some slot, { r with hazards := r.hazards.set slot ptr })
        ∧ HpGuard.clear r slot = { r with hazards := r.hazards.set slot 0 }) := by
  intro r slot ptr
  constructor
  · intro hge
    exact ⟨by simp [HpGuard.protect, hge],
      by simp [HpGuard.clear, Nat.not_lt.mpr hge]⟩
  · intro hlt
    exact ⟨by simp [HpGuard.protect, Nat.not_le.mpr hlt],
      by simp [HpGuard.clear, hlt]⟩

/-- Witness for C10: slot 4 is rejected untouched, slot 1 is written. -/
theorem C10_hp_protect_clear_witness :
    (HpGuard.protect HpRecord.new 4 9 = (none, HpRecord.new)
      ∧ HpGuard.clear HpRecord.new 4 = HpRecord.new)
  ∧ (HpGuard.protect HpRecord.new 1 9 =
        (some 1, { HpRecord.new with hazards := HpRecord.new.hazards.set 1 9 })
      ∧ HpGuard.clear HpRecord.new 1 =
        { HpRecord.new with hazards := HpRecord.new.hazards.set 1 0 }) :=
  ⟨(C10_hp_protect_clear HpRecord.new 4 9).1 (by norm_num [HP_PER_THREAD]),
    (C10_hp_protect_clear HpRecord.new 1 9).2 (by norm_num [HP_PER_THREAD])⟩

end CkRust
